import Mathlib

/-!
Verification development for `chadtree/fs/ops.py`, the batch
filesystem-mutation core of the chadtree project.

Modelling conventions (shallow embedding):

* A `Path` is an absolute filesystem path after `PurePath` normalisation,
  represented by its list of components below the root: `"/"` is `[]`,
  `"/a/b"` is `["a", "b"]`.  `PurePath(p).parents` of such a path is
  exactly the set of proper prefixes of its component list.
* The filesystem is an association list from paths to entries; `lookup`
  returns the first binding, mirroring a key-value view of the directory
  tree.  OS primitives (`os.stat` with `follow_symlinks=False`,
  `os.remove`, `shutil.rmtree`, `os.makedirs`, `Path.touch`,
  `shutil.move`, `shutil.copy2`, `shutil.copytree`) are modelled as
  explicit state transformers over this map, fallible ones returning
  `Except Err`.
* Machine-level metadata (uid, gid, mtime, size, permission bits) are
  plain naturals; `datetime.fromtimestamp` is abstracted to the raw
  timestamp.
-/

namespace Chadtree

/-- An absolute path, as its component list after normalisation. -/
abbrev FPath := List String

/-- Embeds `ancestors` of `ops.py`: the set of proper prefixes of the
component list, i.e. `{str(p) for p in PurePath(path).parents}`. -/
def ancestors (path : FPath) : Finset FPath :=
  ((List.range path.length).map fun n => path.take n).toFinset

/-- Embeds `unify_ancestors` of `ops.py`:
`{p for p in paths if ancestors(p).isdisjoint(paths)}`. -/
def unify_ancestors (paths : Finset FPath) : Finset FPath :=
  paths.filter fun p => ancestors p ∩ paths = ∅

theorem mem_ancestors {q p : FPath} : q ∈ ancestors p ↔ q <+: p ∧ q ≠ p := by
  constructor
  · intro hq
    simp only [ancestors, List.mem_toFinset, List.mem_map, List.mem_range] at hq
    obtain ⟨n, hn, rfl⟩ := hq
    constructor
    · exact ⟨p.drop n, List.take_append_drop n p⟩
    · intro h
      have hlen : (p.take n).length = n := by
        simp [List.length_take, Nat.min_eq_left (Nat.le_of_lt hn)]
      rw [h] at hlen
      omega
  · rintro ⟨⟨t, ht⟩, hne⟩
    simp only [ancestors, List.mem_toFinset, List.mem_map, List.mem_range]
    refine ⟨q.length, ?_, ?_⟩
    · have hlen : q.length + t.length = p.length := by
        rw [← ht]; simp
      rcases Nat.eq_zero_or_pos t.length with h0 | h0
      · exfalso
        have ht0 : t = [] := List.eq_nil_of_length_eq_zero h0
        subst ht0
        simp only [List.append_nil] at ht
        exact hne ht
      · omega
    · rw [← ht]
      simp

theorem ancestors_disjoint_iff {p : FPath} {s : Finset FPath} :
    ancestors p ∩ s = ∅ ↔ ∀ q ∈ s, ¬(q <+: p ∧ q ≠ p) := by
  rw [Finset.eq_empty_iff_forall_not_mem]
  constructor
  · intro h q hqs hq
    exact h q (Finset.mem_inter.mpr ⟨mem_ancestors.mpr hq, hqs⟩)
  · intro h q hq
    rcases Finset.mem_inter.mp hq with ⟨h1, h2⟩
    exact h q h2 (mem_ancestors.mp h1)

/-- C1: `unify_ancestors` returns exactly the subset of the input whose
ancestor set (the proper prefix directories up to the root) is disjoint
from the input; hence the result is contained in the input and no element
of the result has another member of the input as an ancestor. -/
theorem unify_ancestors_spec (s : Finset FPath) :
    unify_ancestors s ⊆ s ∧
    (∀ p, p ∈ unify_ancestors s ↔ p ∈ s ∧ ∀ q ∈ s, ¬(q <+: p ∧ q ≠ p)) ∧
    (∀ p ∈ unify_ancestors s, ∀ q ∈ s, ¬(q <+: p ∧ q ≠ p)) := by
  refine ⟨Finset.filter_subset _ s, ?_, ?_⟩
  · intro p
    rw [unify_ancestors, Finset.mem_filter, ancestors_disjoint_iff]
  · intro p hp q hqs
    rcases Finset.mem_filter.mp hp with ⟨_, hdisj⟩
    exact ancestors_disjoint_iff.mp hdisj q hqs

/-- Witness for C1 on the concrete set `{"/", "/a", "/a/b", "/c"}`:
only the root survives the reduction, and the characterisation holds. -/
theorem unify_ancestors_spec_witness :
    (([] : FPath) ∈ unify_ancestors {[], ["a"], ["a", "b"], ["c"]} ↔
      ([] : FPath) ∈ ({[], ["a"], ["a", "b"], ["c"]} : Finset FPath) ∧
        ∀ q ∈ ({[], ["a"], ["a", "b"], ["c"]} : Finset FPath),
          ¬(q <+: ([] : FPath) ∧ q ≠ [])) :=
  (unify_ancestors_spec {[], ["a"], ["a", "b"], ["c"]}).2.1 []

/-- C2: `unify_ancestors` is idempotent. -/
theorem unify_ancestors_idem (s : Finset FPath) :
    unify_ancestors (unify_ancestors s) = unify_ancestors s := by
  apply Finset.ext
  intro p
  simp only [unify_ancestors, Finset.mem_filter]
  constructor
  · rintro ⟨⟨hps, hdisj⟩, _⟩
    exact ⟨hps, hdisj⟩
  · rintro ⟨hps, hdisj⟩
    refine ⟨⟨hps, hdisj⟩, ?_⟩
    rw [Finset.eq_empty_iff_forall_not_mem]
    intro q hq
    rcases Finset.mem_inter.mp hq with ⟨h1, h2⟩
    rcases Finset.mem_filter.mp h2 with ⟨hqs, _⟩
    rw [Finset.eq_empty_iff_forall_not_mem] at hdisj
    exact hdisj q (Finset.mem_inter.mpr ⟨h1, hqs⟩)

/-! ## Filesystem model -/

/-- Error kinds surfaced by the modelled OS primitives (§7 of the spec:
NotFound, AlreadyExists, NotADirectory/IsADirectory conflicts, link
loops). -/
inductive Err where
  | notFound
  | alreadyExists
  | notADirectory
  | isADirectory
  | tooManyLinks
  | sameFile
deriving DecidableEq, Repr

/-- Raw metadata of one entry, as surfaced by `os.stat`: permission bits,
owner and group ids, modification time (raw timestamp) and size. -/
structure Meta where
  perms : Nat
  uid : Nat
  gid : Nat
  mtime : Nat
  size : Nat
deriving DecidableEq, Repr

/-- One filesystem entry: a regular file with its content bytes, a
directory, or a symbolic link carrying its (absolute) target. -/
inductive Entry where
  | file (meta : Meta) (content : List Nat)
  | dir (meta : Meta)
  | symlink (meta : Meta) (target : FPath)
deriving DecidableEq, Repr

/-- The filesystem state: an association list from absolute paths to
entries; the first binding of a key is the live one. -/
abbrev FS := List (FPath × Entry)

/-- First binding of `p` in the filesystem. `lookup fs p = none` models
the ENOENT outcome of `os.stat(p, follow_symlinks=False)`; a `some`
result is the lstat view of the entry itself (a symlink is reported as a
symlink, never as its target). -/
def lookup (fs : FS) (p : FPath) : Option Entry :=
  match fs with
  | [] => none
  | (q, e) :: rest => if q = p then some e else lookup rest p

/-- Own metadata of an entry (the `follow_symlinks=False` view). -/
def metaOf : Entry → Meta
  | .file m _ => m
  | .dir m => m
  | .symlink m _ => m

/-- True when `p` is bound to a directory. -/
def isDirAt (fs : FS) (p : FPath) : Bool :=
  match lookup fs p with
  | some (.dir _) => true
  | _ => false

/-- Embeds `os.remove`: unlink the single entry at `p`. -/
def rm (fs : FS) (p : FPath) : FS :=
  fs.filter fun e => !decide (e.1 = p)

/-- Embeds `shutil.rmtree`: delete `p` and every entry below it. -/
def rmtree (fs : FS) (p : FPath) : FS :=
  fs.filter fun e => !decide (p <+: e.1)

/-- Embeds `_remove` of `ops.py`: lstat the path, recurse with `rmtree`
on a directory, unlink a single entry otherwise. -/
def _remove (fs : FS) (p : FPath) : Except Err FS :=
  match lookup fs p with
  | none => .error .notFound
  | some (.dir _) => .ok (rmtree fs p)
  | some _ => .ok (rm fs p)

theorem lookup_filter_key (fs : FS) (pred : FPath → Bool) (q : FPath) :
    lookup (fs.filter fun e => pred e.1) q =
      if pred q then lookup fs q else none := by
  induction fs with
  | nil => simp [lookup]
  | cons hd tl ih =>
    obtain ⟨k, e⟩ := hd
    by_cases hk : pred k
    · simp only [List.filter_cons, hk, lookup]
      by_cases hkq : k = q
      · subst hkq
        simp [lookup, hk]
      · simp [lookup, hkq, ih]
    · simp only [List.filter_cons, lookup]
      rw [if_neg (by simpa using hk)]
      by_cases hkq : k = q
      · subst hkq
        simp [ih, hk]
      · simp [lookup, hkq, ih]

theorem lookup_rm (fs : FS) (p q : FPath) :
    lookup (rm fs p) q = if q = p then none else lookup fs q := by
  have h := lookup_filter_key fs (fun k => !decide (k = p)) q
  by_cases hqp : q = p
  · simpa [rm, hqp] using h
  · simpa [rm, hqp] using h

theorem lookup_rmtree (fs : FS) (p q : FPath) :
    lookup (rmtree fs p) q = if p <+: q then none else lookup fs q := by
  have h := lookup_filter_key fs (fun k => !decide (p <+: k)) q
  by_cases hpq : p <+: q
  · simpa [rmtree, hpq] using h
  · simpa [rmtree, hpq] using h

/-- C3: `_remove` classifies the entry by a non-following stat.  A
directory is deleted with its whole subtree; any other entry — in
particular a symlink, even one whose target is a directory — is deleted
as a single entry: every other path, including everything below the
link's target, is left untouched. -/
theorem remove_spec (fs : FS) (p : FPath) :
    (∀ m, lookup fs p = some (.dir m) →
      _remove fs p = .ok (rmtree fs p) ∧
        ∀ q, p <+: q → lookup (rmtree fs p) q = none) ∧
    (∀ m t, lookup fs p = some (.symlink m t) →
      _remove fs p = .ok (rm fs p) ∧
        lookup (rm fs p) p = none ∧
        ∀ q, q ≠ p → lookup (rm fs p) q = lookup fs q) ∧
    (∀ m c, lookup fs p = some (.file m c) → _remove fs p = .ok (rm fs p)) := by
  refine ⟨?_, ?_, ?_⟩
  · intro m hm
    refine ⟨by simp [_remove, hm], ?_⟩
    intro q hq
    simp [lookup_rmtree, hq]
  · intro m t hm
    refine ⟨by simp [_remove, hm], by simp [lookup_rm], ?_⟩
    intro q hq
    simp [lookup_rm, hq]
  · intro m c hm
    simp [_remove, hm]

/-- A tiny fixed metadata record for concrete witnesses. -/
def mEx : Meta := ⟨420, 1000, 1000, 0, 0⟩

/-- A concrete filesystem: `/a` is a symlink to the directory `/d`,
which contains `/d/x`. -/
def fsEx : FS :=
  [([], .dir mEx), (["a"], .symlink mEx ["d"]),
   (["d"], .dir mEx), (["d", "x"], .file mEx [7])]

/-- Witness for C3: removing the symlink `/a` (whose target `/d` is a
directory) unlinks only `/a`; the target directory and its child
survive. -/
theorem remove_spec_witness :
    _remove fsEx ["a"] = .ok (rm fsEx ["a"]) ∧
      lookup (rm fsEx ["a"]) ["a"] = none ∧
      lookup (rm fsEx ["a"]) ["d", "x"] = lookup fsEx ["d", "x"] := by
  have h := (remove_spec fsEx ["a"]).2.1 mEx ["d"] (by decide)
  exact ⟨h.1, h.2.1, h.2.2 ["d", "x"] (by decide)⟩

/-! ## Directory creation and file creation -/

/-- Modelled from the spec: `FILE_MODE` comes from `..consts`, which is
not under `src/`; the spec only requires "a fixed file permission mode". -/
def FILE_MODE : Nat := 420

/-- Modelled from the spec: `FOLDER_MODE` comes from `..consts`, which is
not under `src/`; the spec only requires "a fixed directory permission
mode". -/
def FOLDER_MODE : Nat := 493

/-- Metadata of a freshly created entry.  Ownership and timestamps of new
entries are abstracted to zero: no claim inspects them. -/
def newMeta (perms : Nat) : Meta := ⟨perms, 0, 0, 0, 0⟩

/-- Work loop of `os.makedirs(..., exist_ok=True)`: walk the components,
reusing an existing directory at each step, creating a missing one, and
failing when a step exists as a non-directory. -/
def makedirsAux (fs : FS) (pref : FPath) : List String → Except Err FS
  | [] => .ok fs
  | c :: cs =>
    match lookup fs (pref ++ [c]) with
    | some (.dir _) => makedirsAux fs (pref ++ [c]) cs
    | some _ => .error .notADirectory
    | none =>
      makedirsAux ((pref ++ [c], .dir (newMeta FOLDER_MODE)) :: fs) (pref ++ [c]) cs

/-- Embeds `makedirs(path, mode=FOLDER_MODE, exist_ok=True)`. -/
def makedirs (fs : FS) (p : FPath) : Except Err FS :=
  makedirsAux fs [] p

/-- Embeds `Path(path).touch(mode=FILE_MODE, exist_ok=True)`: an existing
entry is left in place (only a timestamp update, abstracted here since
the model carries no clock); a missing one becomes an empty file. -/
def touch (fs : FS) (p : FPath) : FS :=
  match lookup fs p with
  | some _ => fs
  | none => (p, .file (newMeta FILE_MODE) []) :: fs

/-- A raw path string as `_new` receives it: the component list plus
whether the string ended with the separator (`path.endswith(sep)`).
`dirname` of a non-trailing-separator path is the component list without
its last element. -/
structure RawPath where
  comps : FPath
  trailingSep : Bool
deriving DecidableEq, Repr

/-- Embeds `_new` of `ops.py`: a trailing separator means "directory", so
`makedirs` the whole path; otherwise `makedirs` the dirname and touch the
file. -/
def _new (fs : FS) (rp : RawPath) : Except Err FS :=
  if rp.trailingSep then
    makedirs fs rp.comps
  else
    match makedirs fs rp.comps.dropLast with
    | .error e => .error e
    | .ok fs1 => .ok (touch fs1 rp.comps)

theorem lookup_cons (k : FPath) (v : Entry) (fs : FS) (q : FPath) :
    lookup ((k, v) :: fs) q = if k = q then some v else lookup fs q := rfl

theorem isDirAt_iff {fs : FS} {p : FPath} :
    isDirAt fs p = true ↔ ∃ m, lookup fs p = some (.dir m) := by
  unfold isDirAt
  rcases h : lookup fs p with _ | e
  · simp
  · cases e <;> simp

theorem makedirsAux_preserves {rest : List String} :
    ∀ {fs : FS} {pref : FPath} {fs' : FS},
      makedirsAux fs pref rest = .ok fs' →
      ∀ q e, lookup fs q = some e → lookup fs' q = some e := by
  induction rest with
  | nil =>
    intro fs pref fs' h q e hq
    simp only [makedirsAux, Except.ok.injEq] at h
    rw [← h]; exact hq
  | cons c cs ih =>
    intro fs pref fs' h q e hq
    simp only [makedirsAux] at h
    rcases hl : lookup fs (pref ++ [c]) with _ | e0
    · rw [hl] at h
      have hqk : ¬(pref ++ [c] = q) := by
        intro hk; rw [hk] at hl; rw [hl] at hq; exact Option.noConfusion hq
      refine ih h q e ?_
      rw [lookup_cons, if_neg hqk]; exact hq
    · cases e0 with
      | file m c0 => rw [hl] at h; exact Except.noConfusion h
      | dir m => rw [hl] at h; exact ih h q e hq
      | symlink m t => rw [hl] at h; exact Except.noConfusion h

theorem makedirsAux_dirs {rest : List String} :
    ∀ {fs : FS} {pref : FPath} {fs' : FS},
      makedirsAux fs pref rest = .ok fs' →
      ∀ n, n < rest.length → isDirAt fs' (pref ++ rest.take (n + 1)) = true := by
  induction rest with
  | nil =>
    intro fs pref fs' _ n hn
    exact absurd hn (Nat.not_lt_zero n)
  | cons c cs ih =>
    intro fs pref fs' h n hn
    simp only [makedirsAux] at h
    rcases hl : lookup fs (pref ++ [c]) with _ | e0
    · rw [hl] at h
      rcases n with _ | n
      · have hd : lookup fs' (pref ++ [c]) = some (.dir (newMeta FOLDER_MODE)) := by
          refine makedirsAux_preserves h (pref ++ [c]) _ ?_
          rw [lookup_cons, if_pos rfl]
        show isDirAt fs' (pref ++ [c]) = true
        exact isDirAt_iff.mpr ⟨_, hd⟩
      · have hrec := ih h n (by simpa using Nat.lt_of_succ_lt_succ hn)
        show isDirAt fs' (pref ++ (c :: cs.take (n + 1))) = true
        rw [List.append_cons]
        exact hrec
    · cases e0 with
      | file m c0 => rw [hl] at h; exact Except.noConfusion h
      | symlink m t => rw [hl] at h; exact Except.noConfusion h
      | dir m =>
        rw [hl] at h
        rcases n with _ | n
        · have hd : lookup fs' (pref ++ [c]) = some (.dir m) :=
            makedirsAux_preserves h (pref ++ [c]) _ hl
          show isDirAt fs' (pref ++ [c]) = true
          exact isDirAt_iff.mpr ⟨_, hd⟩
        · have hrec := ih h n (by simpa using Nat.lt_of_succ_lt_succ hn)
          show isDirAt fs' (pref ++ (c :: cs.take (n + 1))) = true
          rw [List.append_cons]
          exact hrec

theorem makedirsAux_of_dirs {rest : List String} :
    ∀ {fs : FS} {pref : FPath},
      (∀ n, n < rest.length → isDirAt fs (pref ++ rest.take (n + 1)) = true) →
      makedirsAux fs pref rest = .ok fs := by
  induction rest with
  | nil => intro fs pref _; rfl
  | cons c cs ih =>
    intro fs pref hdirs
    have h0 : isDirAt fs (pref ++ [c]) = true :=
      hdirs 0 (Nat.succ_pos cs.length)
    obtain ⟨m, hm⟩ := isDirAt_iff.mp h0
    simp only [makedirsAux, hm]
    refine ih ?_
    intro n hn
    have hstep := hdirs (n + 1) (by simpa using Nat.succ_lt_succ hn)
    show isDirAt fs ((pref ++ [c]) ++ cs.take (n + 1)) = true
    rw [← List.append_cons]
    exact hstep

theorem makedirs_dirs {fs fs' : FS} {p : FPath} (h : makedirs fs p = .ok fs') :
    ∀ n, n < p.length → isDirAt fs' (p.take (n + 1)) = true := by
  intro n hn
  simpa using makedirsAux_dirs h n hn

theorem makedirs_idem {fs fs' : FS} {p : FPath} (h : makedirs fs p = .ok fs') :
    makedirs fs' p = .ok fs' := by
  refine makedirsAux_of_dirs ?_
  intro n hn
  simpa using makedirs_dirs h n hn

theorem touch_preserves {fs : FS} {q : FPath} {e : Entry} (p : FPath)
    (hq : lookup fs q = some e) : lookup (touch fs p) q = some e := by
  unfold touch
  rcases hl : lookup fs p with _ | e0
  · have hpq : ¬(p = q) := by
      intro hk; rw [hk] at hl; rw [hl] at hq; exact Option.noConfusion hq
    rw [lookup_cons, if_neg hpq]; exact hq
  · exact hq

theorem lookup_touch_self (fs : FS) (p : FPath) :
    ∃ e, lookup (touch fs p) p = some e := by
  unfold touch
  rcases hl : lookup fs p with _ | e0
  · exact ⟨_, by rw [lookup_cons, if_pos rfl]⟩
  · exact ⟨e0, hl⟩

theorem touch_of_some {fs : FS} {p : FPath} {e : Entry}
    (h : lookup fs p = some e) : touch fs p = fs := by
  unfold touch; rw [h]

/-- C6: `_new` is idempotent: once a call succeeds, re-running it on the
result succeeds and changes nothing.  A trailing-separator path yields
the directory and every missing ancestor; a file path never truncates a
pre-existing file: its content survives the call. -/
theorem new_spec (fs : FS) (rp : RawPath) :
    (∀ fs', _new fs rp = .ok fs' → _new fs' rp = .ok fs') ∧
    (∀ fs', rp.trailingSep = true → _new fs rp = .ok fs' →
      ∀ n, n < rp.comps.length → isDirAt fs' (rp.comps.take (n + 1)) = true) ∧
    (∀ fs' m c, _new fs rp = .ok fs' → lookup fs rp.comps = some (.file m c) →
      lookup fs' rp.comps = some (.file m c)) := by
  refine ⟨?_, ?_, ?_⟩
  · intro fs' h
    by_cases htr : rp.trailingSep
    · rw [_new, if_pos htr] at h ⊢
      exact makedirs_idem h
    · rw [_new, if_neg htr] at h ⊢
      rcases hmk : makedirs fs rp.comps.dropLast with e | fs1
      · rw [hmk] at h; exact Except.noConfusion h
      · rw [hmk] at h
        simp only [Except.ok.injEq] at h
        subst h
        have hmk2 : makedirs (touch fs1 rp.comps) rp.comps.dropLast =
            .ok (touch fs1 rp.comps) := by
          refine makedirsAux_of_dirs ?_
          intro n hn
          obtain ⟨m, hm⟩ := isDirAt_iff.mp (makedirs_dirs hmk n hn)
          exact isDirAt_iff.mpr ⟨m, by
            simpa using touch_preserves rp.comps hm⟩
        rw [hmk2]
        obtain ⟨e, he⟩ := lookup_touch_self fs1 rp.comps
        show Except.ok (touch (touch fs1 rp.comps) rp.comps) =
          Except.ok (touch fs1 rp.comps)
        rw [touch_of_some he]
  · intro fs' htr h n hn
    rw [_new, if_pos htr] at h
    exact makedirs_dirs h n hn
  · intro fs' m c h hfile
    by_cases htr : rp.trailingSep
    · rw [_new, if_pos htr] at h
      exact makedirsAux_preserves h rp.comps _ hfile
    · rw [_new, if_neg htr] at h
      rcases hmk : makedirs fs rp.comps.dropLast with e | fs1
      · rw [hmk] at h; exact Except.noConfusion h
      · rw [hmk] at h
        simp only [Except.ok.injEq] at h
        subst h
        exact touch_preserves rp.comps
          (makedirsAux_preserves hmk rp.comps _ hfile)

/-- Start state for the C6 witness: a root directory and a pre-existing
file `/f` with non-empty content. -/
def fsTouch : FS := [([], .dir mEx), (["f"], .file mEx [1, 2])]

/-- Result of creating `/a/b` in `fsTouch`. -/
def fsNew1 : FS :=
  (["a", "b"], .file (newMeta FILE_MODE) []) ::
    (["a"], .dir (newMeta FOLDER_MODE)) :: fsTouch

/-- Witness for C6: creating `/a/b` (a file path) twice is a fixed point
after the first call, and a second `_new` on the pre-existing `/f` is a
no-op that keeps its content. -/
theorem new_spec_witness :
    _new fsTouch ⟨["a", "b"], false⟩ = .ok fsNew1 ∧
    _new fsNew1 ⟨["a", "b"], false⟩ = .ok fsNew1 ∧
    _new fsTouch ⟨["f"], false⟩ = .ok fsTouch ∧
    lookup fsTouch ["f"] = some (.file mEx [1, 2]) := by
  have h1 : _new fsTouch ⟨["a", "b"], false⟩ = .ok fsNew1 := by rfl
  have h3 : _new fsTouch ⟨["f"], false⟩ = .ok fsTouch := by rfl
  refine ⟨h1, (new_spec fsTouch ⟨["a", "b"], false⟩).1 _ h1, h3, ?_⟩
  have h := (new_spec fsTouch ⟨["f"], false⟩).2.2 fsTouch mEx [1, 2] h3 (by rfl)
  exact h

/-! ## Moves: `shutil.move`, `_rename` and `_cut` -/

/-- Rebases every entry at or below `src` to the corresponding path below
`dest`. -/
def moveSubtree (fs : FS) (src dest : FPath) : FS :=
  fs.map fun pr =>
    if src <+: pr.1 then (dest ++ pr.1.drop src.length, pr.2) else pr

/-- Embeds `shutil.move(src, dest)` at the level the claims observe: the
source must exist, the destination's parent directory must already
exist, and then the whole subtree rooted at `src` is rebased onto
`dest`.  The move-into-an-existing-destination refinements of
`shutil.move` are abstracted into an AlreadyExists failure; a missing
destination parent is the OS ENOENT failure. -/
def mv (fs : FS) (src dest : FPath) : Except Err FS :=
  match lookup fs src with
  | none => .error .notFound
  | some _ =>
    if isDirAt fs dest.dropLast then
      if (lookup fs dest).isSome then .error .alreadyExists
      else .ok (moveSubtree fs src dest)
    else .error .notFound

/-- Embeds `_rename` of `ops.py`: `makedirs(dirname(dest), exist_ok=True)`
and then `mv(src, dest)`. -/
def _rename (fs : FS) (src dest : FPath) : Except Err FS :=
  match makedirs fs dest.dropLast with
  | .error e => .error e
  | .ok fs1 => mv fs1 src dest

/-- C7: `_rename` first provisions every missing ancestor directory of
the destination and only then performs the OS move: a failure of the
directory creation is surfaced as the rename's error (the caller's
CrossOperation kind) and the move never runs; otherwise whatever the
move returns — success or OS failure — is the result. -/
theorem rename_spec (fs : FS) (src dest : FPath) :
    (∀ e, makedirs fs dest.dropLast = .error e →
      _rename fs src dest = .error e) ∧
    (∀ fs1, makedirs fs dest.dropLast = .ok fs1 →
      _rename fs src dest = mv fs1 src dest ∧
        ∀ n, n < dest.dropLast.length →
          isDirAt fs1 (dest.dropLast.take (n + 1)) = true) := by
  constructor
  · intro e h
    rw [_rename, h]
  · intro fs1 h
    rw [_rename, h]
    exact ⟨rfl, makedirs_dirs h⟩

/-- Start state for the C7/C8 witnesses: a root directory and one file
`/s`; the directory `/p` does not exist. -/
def fsR : FS := [([], .dir mEx), (["s"], .file mEx [1])]

/-- `fsR` after `/p` has been provisioned. -/
def fsR1 : FS := (["p"], .dir (newMeta FOLDER_MODE)) :: fsR

/-- Witness for C7: renaming `/s` to `/p/d` first creates the missing
parent `/p`, then hands over to the move. -/
theorem rename_spec_witness :
    _rename fsR ["s"] ["p", "d"] = mv fsR1 ["s"] ["p", "d"] ∧
      isDirAt fsR1 ["p"] = true := by
  have h := (rename_spec fsR ["s"] ["p", "d"]).2 fsR1 (by rfl)
  exact ⟨h.1, h.2 0 (by decide)⟩

/-- The value of `os.name`: `"nt"` or a POSIX system. -/
inductive OsName where
  | nt
  | posix
deriving DecidableEq, Repr

/-- Platform context for identity resolution.  `pwdb uid` models
`pwd.getpwuid(uid).pw_name`, with `none` standing for the raised
`KeyError`; `grdb` likewise models `grp.getgrgid`.  On `nt` the
databases are absent and never consulted. -/
structure IdCtx where
  os_name : OsName
  pwdb : Nat → Option String
  grdb : Nat → Option String

/-- Embeds `_get_username`: the `nt` variant formats the id; the POSIX
variant looks the id up and falls back to the decimal string on
`KeyError`. -/
def _get_username (ctx : IdCtx) (uid : Nat) : String :=
  match ctx.os_name with
  | .nt => toString uid
  | .posix =>
    match ctx.pwdb uid with
    | some name => name
    | none => toString uid

/-- Embeds `_get_groupname`, the group analogue of `_get_username`. -/
def _get_groupname (ctx : IdCtx) (gid : Nat) : String :=
  match ctx.os_name with
  | .nt => toString gid
  | .posix =>
    match ctx.grdb gid with
    | some name => name
    | none => toString gid

/-- Embeds `stat.S_IFMT`: the file-type nibble of the mode, i.e.
`mode & 0o170000` (bits 12–15). -/
def S_IFMT (mode : Nat) : Nat := mode / 4096 % 16 * 4096

/-- Embeds `stat.S_ISDIR`. -/
def S_ISDIR (mode : Nat) : Bool := S_IFMT mode == 16384

/-- Embeds `stat.S_ISLNK`. -/
def S_ISLNK (mode : Nat) : Bool := S_IFMT mode == 40960

/-- The `st_mode` word the modelled lstat reports for an entry: the
file-type bits joined with the entry's permission bits. -/
def st_mode : Entry → Nat
  | .file m _ => 32768 + m.perms % 4096
  | .dir m => 16384 + m.perms % 4096
  | .symlink m _ => 40960 + m.perms % 4096

/-- Renders one rwx triple of `stat.filemode`. -/
def rwx (bits : Nat) : String :=
  (if bits / 4 % 2 = 1 then "r" else "-") ++
    (if bits / 2 % 2 = 1 then "w" else "-") ++
    (if bits % 2 = 1 then "x" else "-")

/-- The entry-type character of `stat.filemode`. -/
def typeChar (mode : Nat) : String :=
  if S_ISDIR mode then "d" else if S_ISLNK mode then "l" else "-"

/-- Embeds `stat.filemode` on the mode range `st_mode` produces
(regular files, directories, symlinks; the setuid/setgid/sticky display
variants do not arise for the permission bits this model stores). -/
def filemode (mode : Nat) : String :=
  typeChar mode ++ rwx (mode / 64 % 8) ++ rwx (mode / 8 % 8) ++ rwx (mode % 8)

/-- Embeds the `FSstat` dataclass of `ops.py`; `datetime.fromtimestamp`
is abstracted to the raw modification timestamp. -/
structure FSstat where
  permissions : String
  user : String
  group : String
  date_mod : Nat
  size : Nat
  link : Option FPath
deriving DecidableEq, Repr

/-- Embeds `os.readlink`: defined exactly on symlinks. -/
def readlink (fs : FS) (p : FPath) : Option FPath :=
  match lookup fs p with
  | some (.symlink _ t) => some t
  | _ => none

/-- Embeds `fs_stat` of `ops.py`: lstat the path (never following a
terminal symlink), render the permission string, resolve owner and
group, and attach the resolved link target exactly when the entry is a
symlink. -/
def fs_stat (ctx : IdCtx) (fs : FS) (path : FPath) : Except Err FSstat :=
  match lookup fs path with
  | none => .error .notFound
  | some e =>
    let stats := metaOf e
    .ok
      { permissions := filemode (st_mode e)
        user := _get_username ctx stats.uid
        group := _get_groupname ctx stats.gid
        date_mod := stats.mtime
        size := stats.size
        link := if S_ISLNK (st_mode e) then readlink fs path else none }

theorem S_ISLNK_st_mode (e : Entry) :
    S_ISLNK (st_mode e) = true ↔ ∃ m t, e = .symlink m t := by
  cases e <;> simp [S_ISLNK, S_IFMT, st_mode] <;> omega

theorem S_ISDIR_st_mode (e : Entry) :
    S_ISDIR (st_mode e) = true ↔ ∃ m, e = .dir m := by
  cases e <;> simp [S_ISDIR, S_IFMT, st_mode] <;> omega

/-- C4: `fs_stat` reports the symlink's own attributes — permission
string, size and timestamp all come from the link's metadata `m`, never
from the target's entry — and the link field is the resolved target
exactly when the entry is a symbolic link. -/
theorem fs_stat_spec (ctx : IdCtx) (fs : FS) (p : FPath) :
    (∀ m t, lookup fs p = some (.symlink m t) →
      fs_stat ctx fs p = .ok
        { permissions := filemode (st_mode (.symlink m t))
          user := _get_username ctx m.uid
          group := _get_groupname ctx m.gid
          date_mod := m.mtime
          size := m.size
          link := some t }) ∧
    (∀ e st, lookup fs p = some e → fs_stat ctx fs p = .ok st →
      (st.link.isSome = true ↔ ∃ m t, e = .symlink m t)) := by
  constructor
  · intro m t hm
    have hl : S_ISLNK (st_mode (.symlink m t)) = true :=
      (S_ISLNK_st_mode _).mpr ⟨m, t, rfl⟩
    simp only [fs_stat, hm, hl, if_pos, readlink, metaOf]
  · intro e st hm hst
    simp only [fs_stat, hm, Except.ok.injEq] at hst
    subst hst
    by_cases hl : S_ISLNK (st_mode e) = true
    · obtain ⟨m, t, rfl⟩ := (S_ISLNK_st_mode e).mp hl
      simp [hl, readlink, hm]
    · rw [← S_ISLNK_st_mode e]
      simp [Bool.of_not_eq_true hl]

/-- Identity context for witnesses: a POSIX system whose databases know
no ids at all. -/
def ctxEx : IdCtx := ⟨.posix, fun _ => none, fun _ => none⟩

/-- Witness for C4: statting the symlink `/a` (target `/d`, itself a
directory) yields the link's own attributes and the target `/d` in the
link field. -/
theorem fs_stat_spec_witness :
    fs_stat ctxEx fsEx ["a"] = .ok
      { permissions := filemode (st_mode (.symlink mEx ["d"]))
        user := _get_username ctxEx mEx.uid
        group := _get_groupname ctxEx mEx.gid
        date_mod := mEx.mtime
        size := mEx.size
        link := some ["d"] } :=
  (fs_stat_spec ctxEx fsEx ["a"]).1 mEx ["d"] (by rfl)

/-- C5: identity resolution is total and never escalates: on `nt` it is
the decimal formatter; on POSIX a database hit returns the name and a
missed id (the `KeyError` case) degrades to the decimal string — and
`fs_stat` therefore succeeds on every accessible path, whatever the
databases answer. -/
theorem get_username_spec (ctx : IdCtx) (uid gid : Nat) :
    (ctx.os_name = .nt → _get_username ctx uid = toString uid) ∧
    (∀ n, ctx.os_name = .posix → ctx.pwdb uid = some n →
      _get_username ctx uid = n) ∧
    (ctx.pwdb uid = none → _get_username ctx uid = toString uid) ∧
    (ctx.grdb gid = none → _get_groupname ctx gid = toString gid) ∧
    (∀ fs p e, lookup fs p = some e →
      ∃ st, fs_stat ctx fs p = .ok st ∧
        st.user = _get_username ctx (metaOf e).uid ∧
        st.group = _get_groupname ctx (metaOf e).gid) := by
  refine ⟨?_, ?_, ?_, ?_, ?_⟩
  · intro h; rw [_get_username, h]
  · intro n hos hdb; rw [_get_username, hos, hdb]
  · intro hdb
    rcases hos : ctx.os_name with _ | _
    · rw [_get_username, hos]
    · rw [_get_username, hos, hdb]
  · intro hdb
    rcases hos : ctx.os_name with _ | _
    · rw [_get_groupname, hos]
    · rw [_get_groupname, hos, hdb]
  · intro fs p e hm
    refine ⟨{ permissions := filemode (st_mode e)
              user := _get_username ctx (metaOf e).uid
              group := _get_groupname ctx (metaOf e).gid
              date_mod := (metaOf e).mtime
              size := (metaOf e).size
              link := if S_ISLNK (st_mode e) then readlink fs p else none },
      ?_, rfl, rfl⟩
    simp only [fs_stat, hm]

/-- Witness for C5: uid 1234 is unknown to `ctxEx`'s database, yet the
resolver returns `"1234"` and `fs_stat` still succeeds on `/d/x`. -/
theorem get_username_spec_witness :
    _get_username ctxEx 1234 = "1234" ∧
      ∃ st, fs_stat ctxEx fsEx ["d", "x"] = .ok st ∧
        st.user = _get_username ctxEx (metaOf (.file mEx [7])).uid ∧
        st.group = _get_groupname ctxEx (metaOf (.file mEx [7])).gid := by
  constructor
  · exact (get_username_spec ctxEx 1234 0).2.2.1 (by rfl)
  · exact (get_username_spec ctxEx 0 0).2.2.2.2 fsEx ["d", "x"]
      (.file mEx [7]) (by rfl)

/-! ## Copy: `shutil.copy2`, `shutil.copytree` and `_copy` -/

/-- The OS bound on symlink-chain length (ELOOP). -/
def MAXSYMLINKS : Nat := 40

/-- A bound on the `copytree` walk depth, standing for the OS limits
(ELOOP, ENAMETOOLONG) that eventually stop the real program when
following a symlink cycle back into the tree. -/
def MAXDEPTH : Nat := 255

/-- Follows symlink chains to the real entry and its final path, as the
OS resolves a terminal path; the fuel is the ELOOP bound. -/
def resolveLink (fs : FS) : Nat → FPath → Except Err (FPath × Entry)
  | 0, _ => .error .tooManyLinks
  | fuel + 1, p =>
    match lookup fs p with
    | none => .error .notFound
    | some (.symlink _ t) => resolveLink fs fuel t
    | some e => .ok (p, e)

/-- Embeds `os.path.samefile` as `shutil._samefile` consumes it: true
when both paths resolve to the same final binding, false when either
resolution fails (the caught OSError). -/
def isSameFile (fs : FS) (p q : FPath) : Bool :=
  match resolveLink fs MAXSYMLINKS p, resolveLink fs MAXSYMLINKS q with
  | .ok (pp, _), .ok (qq, _) => decide (pp = qq)
  | _, _ => false

/-- Embeds `os.path.isdir`: the path resolves, through symlinks, to a
directory. -/
def isDirF (fs : FS) (p : FPath) : Bool :=
  match resolveLink fs MAXSYMLINKS p with
  | .ok (_, .dir _) => true
  | _ => false

/-- Embeds `os.path.join(dest, os.path.basename(src))`, the destination
rebasing `shutil.copy2` and the `shutil.copytree` walk apply. -/
def joinBasename (dest src : FPath) : FPath :=
  dest ++ src.drop (src.length - 1)

/-- The destination `shutil.copy2` actually writes: an
existing-directory destination is redirected to `dest/basename(src)`. -/
def copy2dst (fs : FS) (src dest : FPath) : FPath :=
  if isDirF fs dest then joinBasename dest src else dest

/-- Embeds `shutil.copy2(src, dest)` with its default
`follow_symlinks=True`.  In order: the existing-directory redirect of
the destination; `SameFileError` when source and (redirected)
destination resolve to the same entry; `open(src)` following the chain —
a directory source fails with IsADirectory; `open(dst, "wb")` — the
destination's parent directory must exist (else ENOENT; intermediate
symlink resolution in the parent is abstracted to the direct directory
binding, the same convention as `mv`), a destination that resolves to a
directory fails with IsADirectory, and an existing file is overwritten;
`copystat` carries the source metadata over. -/
def copy2 (fs : FS) (src dest : FPath) : Except Err FS :=
  if isSameFile fs src (copy2dst fs src dest) then .error .sameFile
  else
    match resolveLink fs MAXSYMLINKS src with
    | .error e => .error e
    | .ok (_, .dir _) => .error .isADirectory
    | .ok (_, .symlink _ _) => .error .notFound
    | .ok (_, .file m c) =>
      if isDirAt fs (copy2dst fs src dest).dropLast then
        if isDirF fs (copy2dst fs src dest) then .error .isADirectory
        else .ok ((copy2dst fs src dest, .file m c) :: fs)
      else .error .notFound

/-- The children the `os.scandir` of the `shutil.copytree` walk lists:
the bound paths one component below `p`. -/
def childKeys (fs : FS) (p : FPath) : List FPath :=
  (fs.map Prod.fst).filter fun q =>
    decide (q.length = p.length + 1) && decide (p <+: q)

mutual

/-- Embeds `shutil.copytree(src, dest)` with its defaults
(`symlinks=False`, `dirs_exist_ok=False`): list the source directory
(resolving a symlinked source as `scandir` does), fail when `dest`
already exists, `makedirs` the destination, copy every child below it
and carry the source directory's metadata onto `dest` (`copystat`).
The fuel bounds the walk (see `MAXDEPTH`); the partial state
`shutil.Error` aggregation leaves behind on a failing child is
abstracted into the error alone. -/
def copytree : Nat → FS → FPath → FPath → Except Err FS
  | 0, _, _, _ => .error .tooManyLinks
  | fuel + 1, fs, src, dest =>
    match resolveLink fs MAXSYMLINKS src with
    | .error e => .error e
    | .ok (ps, .dir m) =>
      if (lookup fs dest).isSome then .error .alreadyExists
      else
        match makedirs fs dest with
        | .error e => .error e
        | .ok fs1 =>
          copytreeChildren fuel ((dest, .dir m) :: fs1) (childKeys fs ps) dest
    | .ok _ => .error .notADirectory
termination_by fuel _fs _src _dest => (fuel, 0)

/-- The per-entry dispatch of the `shutil.copytree` walk with
`symlinks=False`: a child that resolves (through links) to a directory
is recursed into; everything else — regular files, links to files,
dangling links — goes through `copy2`, which follows the link. -/
def copytreeChildren : Nat → FS → List FPath → FPath → Except Err FS
  | _, fs, [], _ => .ok fs
  | fuel, fs, k :: ks, dest =>
    match resolveLink fs MAXSYMLINKS k with
    | .ok (_, .dir _) =>
      (match copytree fuel fs k (joinBasename dest k) with
       | .error e => .error e
       | .ok fs1 => copytreeChildren fuel fs1 ks dest)
    | _ =>
      (match copy2 fs k (joinBasename dest k) with
       | .error e => .error e
       | .ok fs1 => copytreeChildren fuel fs1 ks dest)
termination_by fuel _fs ks _dest => (fuel, ks.length + 1)

end

/-- Embeds `_copy` of `ops.py`: lstat the source (`follow_symlinks=False`),
recurse with `copytree` on a directory and delegate anything else to
`copy2`. -/
def _copy (fs : FS) (src dest : FPath) : Except Err FS :=
  match lookup fs src with
  | none => .error .notFound
  | some (.dir _) => copytree MAXDEPTH fs src dest
  | some _ => copy2 fs src dest

theorem resolveLink_succ (fs : FS) (fuel : Nat) (p : FPath) :
    resolveLink fs (fuel + 1) p =
      match lookup fs p with
      | none => .error .notFound
      | some (.symlink _ t) => resolveLink fs fuel t
      | some e => .ok (p, e) := rfl

theorem drop_length_sub_one {α : Type} (l : List α) (h : l ≠ []) :
    ∃ x, l.drop (l.length - 1) = [x] := by
  induction l with
  | nil => exact absurd rfl h
  | cons a l2 ih =>
    cases l2 with
    | nil => exact ⟨a, rfl⟩
    | cons b l3 =>
      obtain ⟨x, hx⟩ := ih (by simp)
      refine ⟨x, ?_⟩
      have h1 : (a :: b :: l3).length - 1 = l3.length + 1 := by simp
      rw [h1, List.drop_succ_cons]
      have h2 : (b :: l3).length - 1 = l3.length := by simp
      rw [h2] at hx
      exact hx

/-- C10: `_copy` classifies a symlink source by the non-following stat,
so the recursive `copytree` branch is never taken, whatever the link
points at; the delegated `copy2` follows the link.  With a regular-file
target it writes that target's content as a regular file — at `dest`
itself when `dest` is fresh and its parent directory exists, at
`dest/basename(src)` when `dest` is an existing directory — and it
fails when the destination's parent is absent; a directory target fails
with IsADirectory instead of recursing. -/
theorem copy_symlink_spec (fs : FS) (src dest : FPath) :
    ∀ m t, lookup fs src = some (.symlink m t) →
      _copy fs src dest = copy2 fs src dest ∧
      (∀ m' c, lookup fs t = some (.file m' c) →
        (lookup fs dest = none → isDirAt fs dest.dropLast = true →
          _copy fs src dest = .ok ((dest, .file m' c) :: fs) ∧
            lookup ((dest, .file m' c) :: fs) dest = some (.file m' c)) ∧
        (lookup fs dest = none → isDirAt fs dest.dropLast = false →
          _copy fs src dest = .error .notFound) ∧
        (∀ md, lookup fs dest = some (.dir md) →
          lookup fs (joinBasename dest src) = none →
          _copy fs src dest =
            .ok ((joinBasename dest src, .file m' c) :: fs))) ∧
      (∀ m', lookup fs t = some (.dir m') → lookup fs dest = none →
        _copy fs src dest = .error .isADirectory) := by
  intro m t hsrc
  have hbranch : _copy fs src dest = copy2 fs src dest := by
    simp only [_copy, hsrc]
  have hres : resolveLink fs MAXSYMLINKS src = resolveLink fs 39 t := by
    rw [show MAXSYMLINKS = 39 + 1 from rfl, resolveLink_succ, hsrc]
  refine ⟨hbranch, ?_, ?_⟩
  · intro m' c ht
    have hres2 : resolveLink fs MAXSYMLINKS src = .ok (t, .file m' c) := by
      rw [hres, show (39 : Nat) = 38 + 1 from rfl, resolveLink_succ, ht]
    refine ⟨?_, ?_, ?_⟩
    · intro hdest hpar
      have hdres : resolveLink fs MAXSYMLINKS dest = .error .notFound := by
        rw [show MAXSYMLINKS = 39 + 1 from rfl, resolveLink_succ, hdest]
      have hdf : isDirF fs dest = false := by simp [isDirF, hdres]
      have hdst : copy2dst fs src dest = dest := by simp [copy2dst, hdf]
      have hsame : isSameFile fs src dest = false := by
        simp [isSameFile, hres2, hdres]
      refine ⟨?_, by rw [lookup_cons, if_pos rfl]⟩
      rw [hbranch]
      simp [copy2, hdst, hsame, hres2, hpar, hdf]
    · intro hdest hpar
      have hdres : resolveLink fs MAXSYMLINKS dest = .error .notFound := by
        rw [show MAXSYMLINKS = 39 + 1 from rfl, resolveLink_succ, hdest]
      have hdf : isDirF fs dest = false := by simp [isDirF, hdres]
      have hdst : copy2dst fs src dest = dest := by simp [copy2dst, hdf]
      have hsame : isSameFile fs src dest = false := by
        simp [isSameFile, hres2, hdres]
      rw [hbranch]
      simp [copy2, hdst, hsame, hres2, hpar]
    · intro md hdest hJ
      have hdres : resolveLink fs MAXSYMLINKS dest = .ok (dest, .dir md) := by
        rw [show MAXSYMLINKS = 39 + 1 from rfl, resolveLink_succ, hdest]
      have hdf : isDirF fs dest = true := by simp [isDirF, hdres]
      have hdst : copy2dst fs src dest = joinBasename dest src := by
        simp [copy2dst, hdf]
      have hJres :
          resolveLink fs MAXSYMLINKS (joinBasename dest src) =
            .error .notFound := by
        rw [show MAXSYMLINKS = 39 + 1 from rfl, resolveLink_succ, hJ]
      have hsame : isSameFile fs src (joinBasename dest src) = false := by
        simp [isSameFile, hres2, hJres]
      have hJdf : isDirF fs (joinBasename dest src) = false := by
        simp [isDirF, hJres]
      have hne : src ≠ [] := by
        intro h0
        subst h0
        simp only [joinBasename, List.drop_nil, List.append_nil] at hJ
        rw [hdest] at hJ
        exact Option.noConfusion hJ
      obtain ⟨x, hx⟩ := drop_length_sub_one src hne
      have hparJ : isDirAt fs (joinBasename dest src).dropLast = true := by
        have hJd : (joinBasename dest src).dropLast = dest := by
          rw [joinBasename, hx]
          simp
        rw [hJd]
        exact isDirAt_iff.mpr ⟨md, hdest⟩
      rw [hbranch]
      simp [copy2, hdst, hsame, hres2, hparJ, hJdf]
  · intro m' ht hdest
    have hres2 : resolveLink fs MAXSYMLINKS src = .ok (t, .dir m') := by
      rw [hres, show (39 : Nat) = 38 + 1 from rfl, resolveLink_succ, ht]
    have hdres : resolveLink fs MAXSYMLINKS dest = .error .notFound := by
      rw [show MAXSYMLINKS = 39 + 1 from rfl, resolveLink_succ, hdest]
    have hdf : isDirF fs dest = false := by simp [isDirF, hdres]
    have hdst : copy2dst fs src dest = dest := by simp [copy2dst, hdf]
    have hsame : isSameFile fs src dest = false := by
      simp [isSameFile, hres2, hdres]
    rw [hbranch]
    simp [copy2, hdst, hsame, hres2]

/-- Concrete filesystem for the C10 witness: `/a` is a symlink to the
directory `/d` (holding `/d/x`), and `/l` is a symlink to the regular
file `/d/x`. -/
def fsEx2 : FS :=
  [([], .dir mEx), (["a"], .symlink mEx ["d"]),
   (["d"], .dir mEx), (["d", "x"], .file mEx [7]),
   (["l"], .symlink mEx ["d", "x"])]

/-- Witness for C10: copying the symlink `/a` (target: the directory
`/d`) is delegated to `copy2` and fails with IsADirectory rather than
recursing; copying the file link `/l` to the fresh `/c` lands the
target's content at `/c`, and copying it onto the existing directory
`/d` lands the content at `/d/l`. -/
theorem copy_symlink_spec_witness :
    _copy fsEx2 ["a"] ["c"] = copy2 fsEx2 ["a"] ["c"] ∧
      _copy fsEx2 ["a"] ["c"] = .error .isADirectory ∧
      _copy fsEx2 ["l"] ["c"] = .ok ((["c"], .file mEx [7]) :: fsEx2) ∧
      _copy fsEx2 ["l"] ["d"] = .ok ((["d", "l"], .file mEx [7]) :: fsEx2) := by
  have ha := copy_symlink_spec fsEx2 ["a"] ["c"] mEx ["d"] (by rfl)
  have hl := copy_symlink_spec fsEx2 ["l"] ["c"] mEx ["d", "x"] (by rfl)
  have hl2 := copy_symlink_spec fsEx2 ["l"] ["d"] mEx ["d", "x"] (by rfl)
  refine ⟨ha.1, ha.2.2 mEx (by rfl) (by rfl), ?_, ?_⟩
  · exact ((hl.2.1 mEx [7] (by rfl)).1 (by rfl) (by rfl)).1
  · exact (hl2.2.1 mEx [7] (by rfl)).2.2 mEx (by rfl) (by rfl)

/-! ## Batch executor -/

/-- Modelled from the spec: the injected concurrency provider (`pool`,
imported from `..registry`, which is not under `src/`).  Its contract —
"map this function over this collection, run all concurrently, return
when all are done" — is embedded as the collection of every item's
individual outcome, exactly what `tuple(pool.map(f, xs))` hands back;
real-time interleaving is abstracted away. -/
def poolMap {α ε : Type} (f : α → Except ε Unit) (xs : List α) :
    List (Except ε Unit) :=
  xs.map f

/-- C9: a batch entry point runs every one of the N submitted work items:
the collected outcomes have one slot per item, and the outcome in slot i
is the i-th item's own result — so an error in one slot neither removes
nor alters any other slot (no short-circuit cancellation). -/
theorem pool_map_spec {α ε : Type} (f : α → Except ε Unit) (xs : List α) :
    (poolMap f xs).length = xs.length ∧
      ∀ i : Nat, (poolMap f xs)[i]? = (xs[i]?).map f := by
  refine ⟨List.length_map xs f, ?_⟩
  intro i
  simp [poolMap]

end Chadtree
